import Mathlib

/-!
Shallow embedding of the chunked processing pipeline implemented in
`src/services/pollinationsProcessor.ts`, together with proofs of the
spec-level properties of its components: the chunk partitioner
(`chunkContent`), the chunk prioritizer (`_getChunkPriorities` and the
selection step of `processInChunks`), the batch executor
(`runPromisesInBatches`), the cross-product work-unit generator, and the
synthesis reducer of `processAndSynthesize` (threshold, re-chunking loop,
and the `json-array` join strategy).

Strings are modelled as `List Char` (a JS string is a finite sequence of
code units; only sequence structure matters here).  Asynchronous
model calls are pure values: a work unit's factory is represented by the
result it produces, and the executor's observable behaviour (result list,
progress callbacks, number of invoked factories, cancellation) is captured
in an explicit trace.
-/

namespace PollinationsProcessor

/-- JavaScript `String.prototype.substring(a, b)` on a string modelled as a
list of characters: both arguments are clamped into `[0, length]` and
swapped when out of order, then the corresponding slice is returned. -/
def jsSubstring (s : List Char) (a b : Int) : List Char :=
  let len : Int := s.length
  let a' := min (max a 0) len
  let b' := min (max b 0) len
  ((s.take (max a' b').toNat).drop (min a' b').toNat)

/-- JavaScript `Array.prototype.join(sep)` restricted to string elements:
the elements interleaved with the separator. -/
def joinSep (sep : List Char) : List (List Char) → List Char
  | [] => []
  | [x] => x
  | x :: y :: xs => x ++ sep ++ joinSep sep (y :: xs)

/-- The slicing loop shared by `chunkContent` (pollinationsProcessor.ts
lines 101-105) and the synthesis re-chunking loop (lines 227-230):
`for (let i = 0; i < content.length; i += chunkSize)` pushing
`content.substring(i, i + chunkSize)`.  Since `substring(i, i + k)` of the
text yet to be consumed is its first `k` characters and advancing `i` by
`k` drops them, each iteration takes `chunkSize` characters off the front.
Stated for `chunkSize ≥ 1`, which the clamped callers guarantee; the
unclamped synthesis-stage call site is modelled separately by the fuelled
`synthChunkLoop` below, and `synthChunkLoop_eq_chunkLoop` proves this
definition coincides with it whenever `chunkSize ≥ 1`. -/
def chunkLoop (chunkSize : Nat) : List Char → List (List Char)
  | [] => []
  | c :: rest =>
    ((c :: rest).take chunkSize) :: chunkLoop chunkSize (rest.drop (chunkSize - 1))
termination_by content => content.length
decreasing_by
  simp only [List.length_drop, List.length_cons]
  omega

/-- The partitioner `chunkContent` of `processInChunks`
(pollinationsProcessor.ts lines 99-106): an empty text yields one empty
chunk (`if (!content) return ['']`), otherwise the text is sliced into
consecutive `chunkSize`-character pieces. -/
def chunkContent (content : List Char) (chunkSize : Nat) : List (List Char) :=
  if content.isEmpty then [[]] else chunkLoop chunkSize content

/-- Every chunk produced by the slicing loop has at most `chunkSize`
characters. -/
theorem chunkLoop_length_le (chunkSize : Nat) (content : List Char) :
    ∀ c ∈ chunkLoop chunkSize content, c.length ≤ chunkSize := by
  induction content using chunkLoop.induct chunkSize with
  | case1 => intro c hc; simp [chunkLoop] at hc
  | case2 c rest ih =>
    intro x hx
    rw [chunkLoop, List.mem_cons] at hx
    rcases hx with hx | hx
    · subst hx; simp [List.length_take_le]
    · exact ih x hx

/-- Concatenating the slices reproduces the text, provided the loop
advances (`chunkSize ≥ 1`). -/
theorem chunkLoop_flatten (chunkSize : Nat) (h : 1 ≤ chunkSize) (content : List Char) :
    (chunkLoop chunkSize content).flatten = content := by
  induction content using chunkLoop.induct chunkSize with
  | case1 => simp [chunkLoop]
  | case2 c rest ih =>
    rw [chunkLoop, List.flatten_cons, ih]
    have hdrop : rest.drop (chunkSize - 1) = (c :: rest).drop chunkSize := by
      cases chunkSize with
      | zero => omega
      | succ k => simp
    rw [hdrop, List.take_append_drop]

/-- The slicing loop yields no chunk on empty input and at least one chunk
otherwise. -/
theorem chunkLoop_eq_nil_iff (chunkSize : Nat) (content : List Char) :
    chunkLoop chunkSize content = [] ↔ content = [] := by
  cases content with
  | nil => simp [chunkLoop]
  | cons c rest => rw [chunkLoop]; simp

/-- Every chunk except possibly the last is full: it has exactly
`chunkSize` characters (`chunkSize ≥ 1`). -/
theorem chunkLoop_full_chunks (chunkSize : Nat) (h : 1 ≤ chunkSize) (content : List Char) :
    ∀ i, i + 1 < (chunkLoop chunkSize content).length →
      ((chunkLoop chunkSize content)[i]?).map List.length = some chunkSize := by
  induction content using chunkLoop.induct chunkSize with
  | case1 => intro i hi; simp [chunkLoop] at hi
  | case2 c rest ih =>
    intro i hi
    rw [chunkLoop] at hi ⊢
    cases i with
    | zero =>
      simp only [List.length_cons] at hi
      have hne : rest.drop (chunkSize - 1) ≠ [] := by
        intro hnil
        rw [(chunkLoop_eq_nil_iff chunkSize _).mpr hnil] at hi
        simp at hi
      have hlen : chunkSize - 1 < rest.length := by
        by_contra hcon
        exact hne (List.drop_eq_nil_iff.mpr (by omega))
      simp only [List.getElem?_cons_zero, Option.map_some']
      have : ((c :: rest).take chunkSize).length = chunkSize := by
        simp only [List.length_take, List.length_cons]
        omega
      rw [this]
    | succ j =>
      simp only [List.length_cons] at hi
      simpa using ih j (by omega)

/-- If the text is strictly longer than `chunkSize`, the loop produces at
least two chunks. -/
theorem chunkLoop_two_le (chunkSize : Nat) (hsize : 1 ≤ chunkSize) (content : List Char)
    (h : chunkSize < content.length) :
    2 ≤ (chunkLoop chunkSize content).length := by
  cases content with
  | nil => simp at h
  | cons c rest =>
    rw [chunkLoop]
    have hne : rest.drop (chunkSize - 1) ≠ [] := by
      intro hnil
      rw [List.drop_eq_nil_iff] at hnil
      simp only [List.length_cons] at h
      omega
    have hpos : 0 < (chunkLoop chunkSize (rest.drop (chunkSize - 1))).length :=
      List.length_pos.mpr fun hnil => hne ((chunkLoop_eq_nil_iff _ _).mp hnil)
    simp only [List.length_cons]
    exact Nat.succ_le_succ hpos

/-- Claim C1.  Partitioner contract: for every text and every
`chunkSizeChars ≥ 1`, `chunkContent` returns, for empty text, exactly one
chunk equal to the empty string; for non-empty text, a list of chunks each
of length at most `chunkSizeChars`, all of them (except possibly the last)
exactly full, whose in-order concatenation reproduces the text exactly. -/
theorem chunkContent_partitions (text : List Char) (size : Nat) (hsize : 1 ≤ size) :
    (text = [] → chunkContent text size = [[]]) ∧
    (text ≠ [] →
      (chunkContent text size).flatten = text ∧
      (∀ c ∈ chunkContent text size, c.length ≤ size) ∧
      (∀ i, i + 1 < (chunkContent text size).length →
        ((chunkContent text size)[i]?).map List.length = some size)) := by
  constructor
  · intro h; subst h; simp [chunkContent]
  · intro h
    have hne : text.isEmpty = false := by
      cases text with
      | nil => exact absurd rfl h
      | cons c rest => rfl
    unfold chunkContent
    rw [hne]
    simp only [Bool.false_eq_true, if_false]
    exact ⟨chunkLoop_flatten size hsize text, chunkLoop_length_le size text,
      chunkLoop_full_chunks size hsize text⟩

/-- Witness for claim C1 at the concrete text `"abcde"` with chunk size 2:
chunks `["ab", "cd", "e"]`. -/
theorem chunkContent_partitions_witness :
    ('a' :: 'b' :: 'c' :: 'd' :: 'e' :: [] ≠ []) ∧
    (chunkContent ('a' :: 'b' :: 'c' :: 'd' :: 'e' :: []) 2).flatten =
      'a' :: 'b' :: 'c' :: 'd' :: 'e' :: [] := by
  refine ⟨by decide, ?_⟩
  exact ((chunkContent_partitions ('a' :: 'b' :: 'c' :: 'd' :: 'e' :: []) 2
    (by decide)).2 (by decide)).1

/-- Observable behaviour of one run of `runPromisesInBatches`
(pollinationsProcessor.ts lines 15-35): whether the run was aborted by the
cancellation check, the results accumulated wave by wave, the `completed`
counts passed to `onProgress` in order, and how many promise factories
were invoked.  When `cancelled` is true the source throws before touching
the current wave, so `results`, `progress` and `invoked` stop at the last
completed wave. -/
structure BatchTrace (R : Type) where
  cancelled : Bool
  results : List R
  progress : List Nat
  invoked : Nat
deriving DecidableEq

/-- The loop of `runPromisesInBatches` (lines 23-33).  Work-unit factories
are pure, so each is represented by the value it produces; `cancel w` is
the value of `isCancelledRef.current` observed by the check at the start
of wave `w`.  Each wave takes the next `batchSize` units
(`slice(i, i + batchSize)`), appends their results, and reports the new
completed count.  Stated for `batchSize ≥ 1` (the loop advances `i` by
`batchSize`; every call site passes 1): the recursive argument
`rest.drop (batchSize - 1)` equals `(u :: rest).drop batchSize` then. -/
def runBatchesFrom (R : Type) (batchSize : Nat) (cancel : Nat → Bool) :
    List R → Nat → Nat → BatchTrace R
  | [], _, _ => ⟨false, [], [], 0⟩
  | u :: rest, wave, completed =>
    if cancel wave then ⟨true, [], [], 0⟩
    else
      let batch := (u :: rest).take batchSize
      let tail := runBatchesFrom R batchSize cancel (rest.drop (batchSize - 1))
        (wave + 1) (completed + batch.length)
      ⟨tail.cancelled, batch ++ tail.results,
        (completed + batch.length) :: tail.progress, batch.length + tail.invoked⟩
termination_by units => units.length
decreasing_by
  simp only [List.length_drop, List.length_cons]
  omega

/-- The value `runPromisesInBatches` settles with: the source throws
`new Error('Process stopped by user.')` when the cancellation check fires,
and otherwise resolves to the accumulated result list. -/
def runPromisesInBatches (R : Type) (units : List R) (batchSize : Nat)
    (cancel : Nat → Bool) : Except String (List R) :=
  let t := runBatchesFrom R batchSize cancel units 0 0
  if t.cancelled then Except.error "Process stopped by user." else Except.ok t.results

/-- Closed form of an uncancelled run, generalized over the starting wave
index and completed count: the run never cancels, returns every unit's
result in input order, invokes every factory, and reports one progress
value per wave, the `i`-th being `completed + min ((i+1)*c) n`. -/
theorem runBatchesFrom_no_cancel (R : Type) (c : Nat) (hc : 1 ≤ c)
    (cancel : Nat → Bool) (hcancel : ∀ w, cancel w = false) :
    ∀ (n : Nat) (units : List R), units.length = n → ∀ (wave completed : Nat),
      runBatchesFrom R c cancel units wave completed =
        ⟨false, units,
          (List.range ((units.length + c - 1) / c)).map
            (fun i => completed + min ((i + 1) * c) units.length),
          units.length⟩ := by
  intro n
  induction n using Nat.strong_induction_on with
  | _ n ih =>
    intro units hlen wave completed
    cases units with
    | nil =>
      rw [runBatchesFrom]
      have h0 : (c - 1) / c = 0 := Nat.div_eq_of_lt (by omega)
      simp [h0]
    | cons u rest =>
      rw [runBatchesFrom, hcancel wave]
      have hdrop : rest.drop (c - 1) = (u :: rest).drop c := by
        cases c with
        | zero => omega
        | succ k => simp
      have hm : (rest.drop (c - 1)).length = rest.length + 1 - c := by
        simp only [List.length_drop]
        omega
      have hlt : (rest.drop (c - 1)).length < n := by
        simp only [List.length_cons] at hlen
        omega
      simp only [Bool.false_eq_true, if_false]
      rw [ih _ hlt _ rfl]
      simp only [BatchTrace.mk.injEq, List.length_take, List.length_cons, hm]
      set N := rest.length + 1 with hN
      have hNpos : 1 ≤ N := by omega
      refine ⟨trivial, ?_, ?_, ?_⟩
      · rw [hdrop]
        exact List.take_append_drop c (u :: rest)
      · rcases le_or_lt N c with hNc | hNc
        · have hz : N - c = 0 := by omega
          have hK' : (N - c + c - 1) / c = 0 := by
            rw [hz]
            exact Nat.div_eq_of_lt (by omega)
          have hK : (N + c - 1) / c = 1 :=
            Nat.div_eq_of_lt_le (by omega) (by omega)
          rw [hK', hK]
          simp only [List.range_zero, List.map_nil]
          have hrange1 : List.range 1 = [0] := rfl
          rw [hrange1, List.map_cons, List.map_nil]
          congr 1
          omega
        · have hK : (N + c - 1) / c = (N - c + c - 1) / c + 1 := by
            have he : N + c - 1 = (N - c + c - 1) + c := by omega
            rw [he, Nat.add_div_right _ (by omega : 0 < c)]
          rw [hK, List.range_succ_eq_map, List.map_cons, List.map_map]
          congr 1
          · omega
          · refine List.map_congr_left ?_
            intro i _
            simp only [Function.comp_apply, Nat.succ_eq_add_one]
            have h2c : (i + 1 + 1) * c = (i + 1) * c + c := by ring
            rw [h2c]
            omega
      · omega


/-- Claim C3.  Batch executor: with `n` work units, concurrency `c ≥ 1`,
and cancellation never set, the run resolves to the results in input order
(wave-major, in-wave original order — `Promise.all` preserves order),
`onProgress` is called exactly `⌈n/c⌉` times with completed values
`min (c, n), min (2c, n), …, n`, and every factory is invoked. -/
theorem runPromisesInBatches_no_cancel (R : Type) (units : List R) (c : Nat)
    (hc : 1 ≤ c) (cancel : Nat → Bool) (hcancel : ∀ w, cancel w = false) :
    runPromisesInBatches R units c cancel = Except.ok units ∧
    (runBatchesFrom R c cancel units 0 0).progress =
      (List.range ((units.length + c - 1) / c)).map
        (fun i => min ((i + 1) * c) units.length) ∧
    (runBatchesFrom R c cancel units 0 0).invoked = units.length := by
  have h := runBatchesFrom_no_cancel R c hc cancel hcancel units.length units rfl 0 0
  refine ⟨?_, ?_, ?_⟩
  · unfold runPromisesInBatches
    rw [h]
    rfl
  · rw [h]
    simp
  · rw [h]

/-- Witness for claim C3 at 7 units and concurrency 2: four waves, results
in input order, progress counts 2, 4, 6, 7. -/
theorem runPromisesInBatches_no_cancel_witness :
    runPromisesInBatches Nat [10, 20, 30, 40, 50, 60, 70] 2 (fun _ => false) =
      Except.ok [10, 20, 30, 40, 50, 60, 70] ∧
    (runBatchesFrom Nat 2 (fun _ => false) [10, 20, 30, 40, 50, 60, 70] 0 0).progress =
      [2, 4, 6, 7] := by
  have h := runPromisesInBatches_no_cancel Nat [10, 20, 30, 40, 50, 60, 70] 2
    (by decide) (fun _ => false) (fun w => rfl)
  refine ⟨h.1, ?_⟩
  rw [h.2.1]
  rfl

/-- Closed form of a run whose cancellation flag first reads true at the
start of wave `k` (with wave `k` reached, i.e. `k*c` strictly below the
unit count): the run aborts, having invoked exactly the `k*c` factories of
the earlier waves and reported exactly `k` progress values `c, 2c, …, kc`;
the trace's `results` field holds the settled results of those waves,
which the throw discards. -/
theorem runBatchesFrom_cancel_at (R : Type) (c : Nat) (hc : 1 ≤ c) (cancel : Nat → Bool) :
    ∀ (k : Nat) (units : List R) (wave completed : Nat),
      (∀ j, j < k → cancel (wave + j) = false) → cancel (wave + k) = true →
      k * c < units.length →
      runBatchesFrom R c cancel units wave completed =
        ⟨true, units.take (k * c),
          (List.range k).map (fun i => completed + (i + 1) * c), k * c⟩ := by
  intro k
  induction k with
  | zero =>
    intro units wave completed hbefore htrue hlen
    cases units with
    | nil => simp at hlen
    | cons u rest =>
      rw [runBatchesFrom]
      rw [Nat.add_zero] at htrue
      rw [htrue]
      simp
  | succ k ih =>
    intro units wave completed hbefore htrue hlen
    cases units with
    | nil => simp at hlen
    | cons u rest =>
      have hcw : cancel wave = false := by
        have := hbefore 0 (by omega)
        rwa [Nat.add_zero] at this
      rw [runBatchesFrom, hcw]
      have hdrop : rest.drop (c - 1) = (u :: rest).drop c := by
        cases c with
        | zero => omega
        | succ m => simp
      have hsucc : (k + 1) * c = k * c + c := by ring
      have hcn : c < (u :: rest).length := by
        have h1 : c ≤ (k + 1) * c := Nat.le_mul_of_pos_left c (by omega)
        omega
      have hbatch : ((u :: rest).take c).length = c := by
        simp only [List.length_take]
        omega
      have ihargs : runBatchesFrom R c cancel (rest.drop (c - 1)) (wave + 1)
          (completed + ((u :: rest).take c).length) =
          ⟨true, (rest.drop (c - 1)).take (k * c),
            (List.range k).map (fun i => (completed + c) + (i + 1) * c), k * c⟩ := by
        rw [hbatch]
        refine ih (rest.drop (c - 1)) (wave + 1) (completed + c) ?_ ?_ ?_
        · intro j hj
          rw [show wave + 1 + j = wave + (j + 1) from by omega]
          exact hbefore (j + 1) (by omega)
        · have : wave + (k + 1) = wave + 1 + k := by omega
          rwa [this] at htrue
        · rw [hdrop]
          simp only [List.length_drop, List.length_cons] at hlen ⊢
          omega
      simp only [Bool.false_eq_true, if_false]
      rw [ihargs]
      simp only [BatchTrace.mk.injEq, hbatch]
      refine ⟨trivial, ?_, ?_, by omega⟩
      · rw [hdrop, hsucc, Nat.add_comm (k * c) c, List.take_add]
      · rw [List.range_succ_eq_map, List.map_cons, List.map_map]
        congr 1
        · omega
        · refine List.map_congr_left ?_
          intro i _
          simp only [Function.comp_apply, Nat.succ_eq_add_one]
          have h2c : (i + 1 + 1) * c = (i + 1) * c + c := by ring
          rw [h2c]
          omega

/-- Claim C4.  Cancellation: if the flag first becomes visible at the start
of wave `k` (false at all earlier wave checks) and wave `k` exists
(`k < ⌈n/c⌉`), the executor fails with the distinguished
`'Process stopped by user.'` error, invokes only the `k*c` factories of
the earlier waves — none of wave `k` or later — returns no results, and
reports no progress beyond the `k` values of the completed waves. -/
theorem runPromisesInBatches_cancelled (R : Type) (units : List R) (c k : Nat)
    (hc : 1 ≤ c) (cancel : Nat → Bool)
    (hbefore : ∀ j, j < k → cancel j = false) (hk : cancel k = true)
    (hwave : k < (units.length + c - 1) / c) :
    runPromisesInBatches R units c cancel = Except.error "Process stopped by user." ∧
    (runBatchesFrom R c cancel units 0 0).invoked = k * c ∧
    (runBatchesFrom R c cancel units 0 0).progress =
      (List.range k).map (fun i => (i + 1) * c) := by
  have hlen : k * c < units.length := by
    have h1 : (k + 1) * c ≤ ((units.length + c - 1) / c) * c :=
      Nat.mul_le_mul_right c (by omega)
    have h2 : ((units.length + c - 1) / c) * c ≤ units.length + c - 1 :=
      Nat.div_mul_le_self _ _
    have h3 : (k + 1) * c = k * c + c := by ring
    omega
  have h := runBatchesFrom_cancel_at R c hc cancel k units 0 0
    (fun j hj => by simpa using hbefore j hj) (by simpa using hk) hlen
  refine ⟨?_, ?_, ?_⟩
  · unfold runPromisesInBatches
    rw [h]
    rfl
  · rw [h]
  · rw [h]
    simp

/-- Witness for claim C4: 7 units, concurrency 2, flag set from wave 2 on:
the run fails with the cancellation error after invoking 4 factories and
reporting progress 2, 4. -/
theorem runPromisesInBatches_cancelled_witness :
    runPromisesInBatches Nat [1, 2, 3, 4, 5, 6, 7] 2 (fun w => decide (2 ≤ w)) =
      Except.error "Process stopped by user." ∧
    (runBatchesFrom Nat 2 (fun w => decide (2 ≤ w)) [1, 2, 3, 4, 5, 6, 7] 0 0).invoked = 4 ∧
    (runBatchesFrom Nat 2 (fun w => decide (2 ≤ w)) [1, 2, 3, 4, 5, 6, 7] 0 0).progress =
      [2, 4] := by
  have h := runPromisesInBatches_cancelled Nat [1, 2, 3, 4, 5, 6, 7] 2 2
    (by decide) (fun w => decide (2 ≤ w))
    (fun j hj => by interval_cases j <;> rfl) (by rfl) (by decide)
  refine ⟨h.1, h.2.1, ?_⟩
  rw [h.2.2]
  rfl

/-- The nested work-unit generation loops of `processInChunks`
(pollinationsProcessor.ts lines 142-152): for each selected main chunk
(outer loop) and each selected auxiliary chunk (inner loop), one work unit
pairing the two. -/
def crossProduct (mains auxs : List (List Char)) : List (List Char × List Char) :=
  mains.flatMap fun m => auxs.map fun a => (m, a)

/-- Progress events of the processing stage: `processInChunks` first
reports `(0, total)` (line 137) and then, via `runPromisesInBatches` with
batch size 1 (lines 154-159), the completed count after each wave, always
paired with `total = |mains| * |auxs|` (line 157). -/
def processingStageEvents (mains auxs : List (List Char)) (cancel : Nat → Bool) :
    List (Nat × Nat) :=
  (0, mains.length * auxs.length) ::
    ((runBatchesFrom (List Char × List Char) 1 cancel (crossProduct mains auxs) 0 0).progress.map
      fun comp => (comp, mains.length * auxs.length))

/-- The cross product has exactly `|mains| * |auxs|` work units. -/
theorem crossProduct_length (mains auxs : List (List Char)) :
    (crossProduct mains auxs).length = mains.length * auxs.length := by
  induction mains with
  | nil => simp [crossProduct]
  | cons m ms ih =>
    simp only [crossProduct, List.flatMap_cons, List.length_append, List.length_map,
      List.length_cons] at ih ⊢
    rw [ih]
    ring

/-- The `k`-th work unit (0-based) pairs main chunk `k / |auxs|` with
auxiliary chunk `k % |auxs|`. -/
theorem crossProduct_getElem (mains auxs : List (List Char)) :
    ∀ k, k < mains.length * auxs.length →
      ∃ m a, mains[k / auxs.length]? = some m ∧ auxs[k % auxs.length]? = some a ∧
        (crossProduct mains auxs)[k]? = some (m, a) := by
  induction mains with
  | nil => intro k hk; simp at hk
  | cons m ms ih =>
    intro k hk
    have hA : 0 < auxs.length := by
      rcases Nat.eq_zero_or_pos auxs.length with h0 | h0
      · rw [h0] at hk; simp at hk
      · exact h0
    rcases Nat.lt_or_ge k auxs.length with hlt | hge
    · refine ⟨m, auxs[k], ?_, ?_, ?_⟩
      · rw [Nat.div_eq_of_lt hlt]
        simp
      · rw [Nat.mod_eq_of_lt hlt]
        simp [hlt]
      · show (crossProduct (m :: ms) auxs)[k]? = _
        unfold crossProduct
        rw [List.flatMap_cons, List.getElem?_append]
        simp [hlt, List.getElem?_eq_getElem]
    · obtain ⟨j, hj⟩ : ∃ j, k = j + auxs.length := ⟨k - auxs.length, by omega⟩
      subst hj
      have hjb : j < ms.length * auxs.length := by
        simp only [List.length_cons] at hk
        have : (ms.length + 1) * auxs.length = ms.length * auxs.length + auxs.length := by
          ring
        omega
      obtain ⟨m', a', hm', ha', hcp⟩ := ih j hjb
      refine ⟨m', a', ?_, ?_, ?_⟩
      · rw [Nat.add_div_right _ hA, List.getElem?_cons_succ]
        exact hm'
      · rw [Nat.add_mod_right]
        exact ha'
      · show (crossProduct (m :: ms) auxs)[j + auxs.length]? = _
        unfold crossProduct
        rw [List.flatMap_cons,
          List.getElem?_append_right (by simp), List.length_map]
        simpa [Nat.add_sub_cancel] using hcp

/-- Claim C2.  Cross-product generation: for selected main chunks `M` and
auxiliary chunks `A`, exactly `|M| * |A|` work units are produced; the
`k`-th (0-based) unit pairs main chunk `⌊k / |A|⌋` with auxiliary chunk
`k mod |A|`; and `|M| * |A|` is the total carried by every progress event
of the processing stage. -/
theorem crossProduct_spec (mains auxs : List (List Char)) (cancel : Nat → Bool) :
    (crossProduct mains auxs).length = mains.length * auxs.length ∧
    (∀ k, k < mains.length * auxs.length →
      ∃ m a, mains[k / auxs.length]? = some m ∧ auxs[k % auxs.length]? = some a ∧
        (crossProduct mains auxs)[k]? = some (m, a)) ∧
    (∀ e ∈ processingStageEvents mains auxs cancel, e.2 = mains.length * auxs.length) := by
  refine ⟨crossProduct_length mains auxs, crossProduct_getElem mains auxs, ?_⟩
  intro e he
  rcases List.mem_cons.mp he with h | h
  · rw [h]
  · obtain ⟨comp, _, h⟩ := List.mem_map.mp h
    rw [← h]

/-- Witness for claim C2 at 3 main and 2 auxiliary chunks: 6 work units,
and the 3rd (0-based) pairs main chunk 1 with auxiliary chunk 1. -/
theorem crossProduct_spec_witness :
    (crossProduct [['a'], ['b'], ['c']] [['x'], ['y']]).length = 3 * 2 ∧
    (crossProduct [['a'], ['b'], ['c']] [['x'], ['y']])[3]? = some (['b'], ['y']) := by
  have h := crossProduct_spec [['a'], ['b'], ['c']] [['x'], ['y']] (fun _ => false)
  obtain ⟨m, a, hm, ha, hcp⟩ := h.2.1 3 (by decide)
  have em : ([['a'], ['b'], ['c']] : List (List Char))[(3 : Nat) /
    ([['x'], ['y']] : List (List Char)).length]? = some ['b'] := rfl
  have ea : ([['x'], ['y']] : List (List Char))[(3 : Nat) %
    ([['x'], ['y']] : List (List Char)).length]? = some ['y'] := rfl
  rw [em] at hm
  rw [ea] at ha
  have hm' : m = ['b'] := (Option.some.inj hm).symm
  have ha' : a = ['y'] := (Option.some.inj ha).symm
  subst hm'
  subst ha'
  exact ⟨h.1, hcp⟩

/-- A chunk priority record (`ChunkPriority` in types.ts), as produced by
`_getChunkPriorities`: a chunk index and a relevance score.  Both come
from parsed JSON, so they are modelled as integers (the model may return
arbitrary, including negative or out-of-range, values). -/
structure ChunkPriority where
  chunk_index : Int
  score : Int
deriving DecidableEq

/-- One element of the model's parsed JSON response before validation: an
object that may or may not carry the `chunk_index` and `score` keys
(the check `'chunk_index' in item && 'score' in item` on line 63). -/
structure RawEntry where
  chunkIndexField : Option Int
  scoreField : Option Int
deriving DecidableEq

/-- The validation of `_getChunkPriorities` (line 63): the parsed value
must be an array in which every element has both keys. -/
def validResponse (entries : List RawEntry) : Bool :=
  entries.all fun e => e.chunkIndexField.isSome && e.scoreField.isSome

/-- The fallback of `_getChunkPriorities` (line 70): one record per chunk,
original order, default score 5. -/
def fallbackPriorities (n : Nat) : List ChunkPriority :=
  (List.range n).map fun (i : Nat) => ⟨(i : Int), 5⟩

/-- `_getChunkPriorities` (pollinationsProcessor.ts lines 41-72), modelled
on its decision structure.  `response = none` stands for every failure
that precedes validation (the API call rejecting, `JSON.parse` throwing,
or the parsed value not being an array); `some entries` stands for a
parsed array of objects.  A validated array is returned as-is (line 64);
everything else lands in the `catch` and yields the neutral fallback.  The
function never throws. -/
def getChunkPriorities (response : Option (List RawEntry)) (numChunks : Nat) :
    List ChunkPriority :=
  match response with
  | none => fallbackPriorities numChunks
  | some entries =>
    if validResponse entries then
      entries.map fun e => ⟨e.chunkIndexField.getD 0, e.scoreField.getD 0⟩
    else fallbackPriorities numChunks

/-- The sort `priorities.sort((a, b) => b.score - a.score)` (line 119):
descending by score.  `Array.prototype.sort` is stable, as is
`List.mergeSort`, so records with equal scores keep their original
relative order. -/
def sortByScoreDesc (ps : List ChunkPriority) : List ChunkPriority :=
  ps.mergeSort fun a b => b.score ≤ a.score

/-- JavaScript array indexing `chunks[i]` with a model-supplied index:
an out-of-range or negative index yields `undefined`, modelled as
`none`. -/
def jsIndex (chunks : List (List Char)) (i : Int) : Option (List Char) :=
  if 0 ≤ i then chunks[i.toNat]? else none

/-- The selection step of `processInChunks` (lines 118-121, likewise
130-133): sort the priority records by descending score, keep the first
`limit`, and map each back to the chunk at its `chunk_index` — with no
bounds check on that index. -/
def selectChunks (priorities : List ChunkPriority) (limit : Nat)
    (chunks : List (List Char)) : List (Option (List Char)) :=
  ((sortByScoreDesc priorities).take limit).map fun p => jsIndex chunks p.chunk_index

/-- The guarded limiting step (lines 115-122): the prioritizing selection
runs only when a positive limit strictly below the chunk count is set
(`limits.doc > 0 && limits.doc < selectedMainChunks.length`); otherwise
the chunks pass through unchanged. -/
def applyLimit (limit : Nat) (chunks : List (List Char))
    (response : Option (List RawEntry)) : List (Option (List Char)) :=
  if 0 < limit ∧ limit < chunks.length then
    selectChunks (getChunkPriorities response chunks.length) limit chunks
  else chunks.map some

/-- On an invalid response the priorities are the neutral fallback. -/
theorem getChunkPriorities_invalid (response : Option (List RawEntry)) (n : Nat)
    (hfail : response = none ∨
      ∃ entries, response = some entries ∧ validResponse entries = false) :
    getChunkPriorities response n = fallbackPriorities n := by
  rcases hfail with h | ⟨entries, hresp, hval⟩
  · rw [h, getChunkPriorities]
  · rw [hresp, getChunkPriorities, hval]
    simp

/-- A list in which all scores are equal is already sorted for the
descending-score comparator, so the stable sort returns it unchanged. -/
theorem sortByScoreDesc_fallback (n : Nat) :
    sortByScoreDesc (fallbackPriorities n) = fallbackPriorities n := by
  unfold sortByScoreDesc
  refine List.mergeSort_of_sorted ?_
  refine List.pairwise_of_forall_mem_list ?_
  intro a ha b hb
  obtain ⟨i, _, hi⟩ := List.mem_map.mp ha
  obtain ⟨j, _, hj⟩ := List.mem_map.mp hb
  rw [← hi, ← hj]
  simp

/-- Selecting with the fallback priorities returns exactly the first
`limit` chunks in original order. -/
theorem selectChunks_fallback (chunks : List (List Char)) (limit : Nat)
    (hlim : limit ≤ chunks.length) :
    selectChunks (fallbackPriorities chunks.length) limit chunks =
      (chunks.take limit).map some := by
  unfold selectChunks
  rw [sortByScoreDesc_fallback]
  unfold fallbackPriorities
  rw [← List.map_take, List.take_range, List.map_map]
  refine List.ext_getElem ?_ ?_
  · simp
  · intro i h1 h2
    have hi : i < limit := by
      simp at h1
      omega
    have hic : i < chunks.length := by omega
    simp only [List.getElem_map, List.getElem_range, Function.comp_apply]
    unfold jsIndex
    rw [if_pos (by omega : (0 : Int) ≤ (i : Int))]
    simp only [Int.toNat_natCast]
    rw [List.getElem?_eq_getElem hic]
    rw [List.getElem_take]

/-- Claim C6.  Prioritizer graceful degradation: with `0 < limit <
|chunks|`, if the scoring call fails or its response fails validation, no
error propagates (the model of `_getChunkPriorities` is total and takes
the `catch` branch); every chunk receives the neutral score 5, and the
selection returns exactly `limit` chunks — the first `limit` chunks in
original order. -/
theorem prioritizer_degrades_gracefully (chunks : List (List Char)) (limit : Nat)
    (response : Option (List RawEntry)) (h1 : 0 < limit) (h2 : limit < chunks.length)
    (hfail : response = none ∨
      ∃ entries, response = some entries ∧ validResponse entries = false) :
    getChunkPriorities response chunks.length = fallbackPriorities chunks.length ∧
    (∀ p ∈ getChunkPriorities response chunks.length, p.score = 5) ∧
    applyLimit limit chunks response = (chunks.take limit).map some ∧
    (applyLimit limit chunks response).length = limit := by
  have hfb := getChunkPriorities_invalid response chunks.length hfail
  have hsel : applyLimit limit chunks response = (chunks.take limit).map some := by
    unfold applyLimit
    rw [if_pos ⟨h1, h2⟩, hfb]
    exact selectChunks_fallback chunks limit (by omega)
  refine ⟨hfb, ?_, hsel, ?_⟩
  · intro p hp
    rw [hfb] at hp
    unfold fallbackPriorities at hp
    obtain ⟨i, _, hi⟩ := List.mem_map.mp hp
    rw [← hi]
  · rw [hsel]
    simp
    omega

/-- Witness for claim C6: three chunks, limit 2, failed scoring call: the
selection is the first two chunks in original order. -/
theorem prioritizer_degrades_gracefully_witness :
    applyLimit 2 [['a'], ['b'], ['c']] none = [some ['a'], some ['b']] := by
  have h := prioritizer_degrades_gracefully [['a'], ['b'], ['c']] 2 none
    (by decide) (by decide) (Or.inl rfl)
  rw [h.2.2.1]
  rfl

/-- Counterexample to claim C9 as stated: with two input chunks, a
response that passes validation (it is an array and its single element has
both keys) but covers only chunk 0 is returned as-is, so the call produces
one record, not one record per input chunk, and chunk 1 receives no score
at all. -/
theorem getChunkPriorities_not_per_chunk :
    (getChunkPriorities (some [⟨some 0, some 7⟩]) 2).length = 1 ∧
    getChunkPriorities (some [⟨some 0, some 7⟩]) 2 = [⟨0, 7⟩] := by
  exact ⟨rfl, rfl⟩

/-- Claim C9 (amended).  Priority record completeness holds exactly in the
fallback case: when the scoring call fails or its response fails
validation, the returned list has exactly one record per input chunk, the
`i`-th being `⟨i, 5⟩`; a response that passes validation is returned
verbatim (and may therefore omit chunks or mention extras — omitted chunks
receive no default score). -/
theorem getChunkPriorities_records (response : Option (List RawEntry)) (n : Nat) :
    (∀ entries, response = some entries → validResponse entries = true →
      getChunkPriorities response n =
        entries.map fun e => ⟨e.chunkIndexField.getD 0, e.scoreField.getD 0⟩) ∧
    ((response = none ∨
        ∃ entries, response = some entries ∧ validResponse entries = false) →
      (getChunkPriorities response n).length = n ∧
      ∀ i, i < n → (getChunkPriorities response n)[i]? = some ⟨(i : Int), 5⟩) := by
  constructor
  · intro entries hresp hval
    rw [hresp, getChunkPriorities, hval]
    simp
  · intro hfail
    rw [getChunkPriorities_invalid response n hfail]
    constructor
    · simp [fallbackPriorities]
    · intro i hi
      unfold fallbackPriorities
      rw [List.getElem?_map, List.getElem?_range hi]
      rfl

/-- Witness for amended claim C9: a failed call over three chunks yields
exactly the three neutral records, and a validated two-entry response is
passed through verbatim. -/
theorem getChunkPriorities_records_witness :
    (getChunkPriorities none 3).length = 3 ∧
    (getChunkPriorities none 3)[1]? = some ⟨1, 5⟩ ∧
    getChunkPriorities (some [⟨some 1, some 9⟩, ⟨some 0, some 2⟩]) 3 =
      [⟨1, 9⟩, ⟨0, 2⟩] := by
  have h1 := (getChunkPriorities_records none 3).2 (Or.inl rfl)
  have h2 := (getChunkPriorities_records (some [⟨some 1, some 9⟩, ⟨some 0, some 2⟩]) 3).1
    [⟨some 1, some 9⟩, ⟨some 0, some 2⟩] rfl rfl
  exact ⟨h1.1, h1.2 1 (by decide), by rw [h2]; rfl⟩

/-- Claim C10.  Unchecked model-supplied index: a response that passes
validation but names chunk index 5 among three chunks makes the selection
contain `undefined` (`none`), an element that is no chunk of the input;
and whenever every returned index lies in `[0, |chunks|)`, every selected
element is a genuine input chunk. -/
theorem selectChunks_unchecked_index :
    (validResponse [⟨some 5, some 9⟩, ⟨some 0, some 8⟩] = true ∧
      none ∈ applyLimit 2 [['a'], ['b'], ['c']]
        (some [⟨some 5, some 9⟩, ⟨some 0, some 8⟩])) ∧
    (∀ (priorities : List ChunkPriority) (limit : Nat) (chunks : List (List Char)),
      (∀ p ∈ priorities, 0 ≤ p.chunk_index ∧ p.chunk_index < (chunks.length : Int)) →
      ∀ x ∈ selectChunks priorities limit chunks, ∃ c ∈ chunks, x = some c) := by
  constructor
  · refine ⟨rfl, ?_⟩
    have hsort : sortByScoreDesc [⟨5, 9⟩, ⟨0, 8⟩] = [⟨5, 9⟩, ⟨0, 8⟩] := by
      unfold sortByScoreDesc
      refine List.mergeSort_of_sorted ?_
      refine List.Pairwise.cons ?_ (List.Pairwise.cons (fun c hc => nomatch hc) List.Pairwise.nil)
      intro b hb
      rcases List.mem_singleton.mp hb with h
      rw [h]
      decide
    have happ : applyLimit 2 [['a'], ['b'], ['c']]
        (some [⟨some 5, some 9⟩, ⟨some 0, some 8⟩]) = [none, some ['a']] := by
      unfold applyLimit
      rw [if_pos (by decide : 0 < 2 ∧ 2 < ([['a'], ['b'], ['c']] : List (List Char)).length)]
      have hpr : getChunkPriorities (some [⟨some 5, some 9⟩, ⟨some 0, some 8⟩])
          ([['a'], ['b'], ['c']] : List (List Char)).length = [⟨5, 9⟩, ⟨0, 8⟩] := rfl
      rw [hpr]
      unfold selectChunks
      rw [hsort]
      rfl
    rw [happ]
    exact List.mem_cons_self none [some ['a']]
  · intro priorities limit chunks hin x hx
    obtain ⟨p, hp, hpx⟩ := List.mem_map.mp hx
    have hpmem : p ∈ priorities :=
      List.mem_mergeSort.mp (List.mem_of_mem_take hp)
    obtain ⟨hge, hlt⟩ := hin p hpmem
    have htn : p.chunk_index.toNat < chunks.length := by omega
    refine ⟨chunks[p.chunk_index.toNat], List.getElem_mem htn, ?_⟩
    rw [← hpx]
    unfold jsIndex
    rw [if_pos hge, List.getElem?_eq_getElem htn]

/-- Witness for claim C10's in-range half: one record with index 0 over a
single chunk selects only that genuine chunk. -/
theorem selectChunks_unchecked_index_witness :
    ∃ c ∈ [['a']], (some ['a'] : Option (List Char)) = some c := by
  refine selectChunks_unchecked_index.2 [⟨0, 9⟩] 1 [['a']] ?_ (some ['a']) ?_
  · intro p hp
    have : p = ⟨0, 9⟩ := by
      rcases List.mem_singleton.mp hp with h
      exact h
    rw [this]
    exact ⟨by decide, by decide⟩
  · have hsel : selectChunks [⟨0, 9⟩] 1 [['a']] = [some ['a']] := by
      unfold selectChunks sortByScoreDesc
      rw [List.mergeSort_singleton]
      rfl
    rw [hsel]
    exact List.mem_singleton.mpr rfl

/-- The synthesis-stage character budget of `processAndSynthesize`
(pollinationsProcessor.ts line 211):
`maxInputChars - synthTemplateLength - 500`.  Unlike the processing-stage
chunk sizes (lines 96-97), this value is not clamped, so it can be zero or
negative. -/
def availableCharsForSynth (maxInputChars synthTemplateLength : Nat) : Int :=
  (maxInputChars : Int) - (synthTemplateLength : Int) - 500

/-- The synthesis re-chunking loop (pollinationsProcessor.ts lines
227-230), modelled step by step with fuel:
`for (let i = 0; i < combined.length; i += avail)` pushing
`combined.substring(i, i + avail)`.  The loop variable is an integer — for
`avail ≤ 0` it never moves forward and the loop never exits — so a run
that does not finish within its fuel is `none`; `synthChunkLoop_diverges`
shows that for `avail ≤ 0` no amount of fuel finishes. -/
def synthChunkLoop : Nat → List Char → Int → Int → Option (List (List Char))
  | 0, _, _, _ => none
  | fuel + 1, text, avail, i =>
    if i < (text.length : Int) then
      (synthChunkLoop fuel text avail (i + avail)).map
        fun rest => jsSubstring text i (i + avail) :: rest
    else
      some []

/-- The chunk list the synthesis re-chunking produces, with fuel
sufficient for every terminating run (`text.length + 1` iterations is
enough whenever `avail ≥ 1`): `none` means the source loop does not
terminate. -/
def synthesisChunks (combined : List Char) (avail : Int) : Option (List (List Char)) :=
  synthChunkLoop (combined.length + 1) combined avail 0

/-- What `processAndSynthesize` does at its synthesis threshold (lines
213-230): a joined text within the budget is synthesized in a single call
(line 213), otherwise it is re-chunked with `availableCharsForSynth` as
the chunk size. -/
inductive SynthPlan where
  | single (text : List Char)
  | chunked (chunks : List (List Char))
deriving DecidableEq

/-- The branch taken by the synthesis step on the joined partial results:
`none` when the re-chunking loop diverges. -/
def synthesisPlan (combined : List Char) (avail : Int) : Option SynthPlan :=
  if (combined.length : Int) ≤ avail then
    some (SynthPlan.single combined)
  else
    (synthesisChunks combined avail).map SynthPlan.chunked

/-- Number of synthesis model calls the plan issues: one for the single
path (line 220), one per chunk through the batch executor for the chunked
path (lines 232-251). -/
def synthesisCallCount : SynthPlan → Nat
  | SynthPlan.single _ => 1
  | SynthPlan.chunked cs => cs.length

/-- A progress stage as reported to `onProgress` in
`processAndSynthesize`. -/
inductive Stage where
  | processing
  | synthesis
deriving DecidableEq

/-- A staged progress event `{ completed, total, stage }`. -/
structure StagedProgress where
  completed : Nat
  total : Nat
  stage : Stage
deriving DecidableEq

/-- The progress events of the synthesis stage: lines 219-221 for the
single-call path, line 244 and the batch run of lines 246-251 (batch size
1) for the chunked path. -/
def synthesisEvents (plan : SynthPlan) (cancel : Nat → Bool) : List StagedProgress :=
  match plan with
  | SynthPlan.single _ => [⟨0, 1, Stage.synthesis⟩, ⟨1, 1, Stage.synthesis⟩]
  | SynthPlan.chunked cs =>
    ⟨0, cs.length, Stage.synthesis⟩ ::
      ((runBatchesFrom (List Char) 1 cancel cs 0 0).progress.map
        fun comp => ⟨comp, cs.length, Stage.synthesis⟩)

/-- With a non-positive chunk size the synthesis re-chunking loop never
reaches the exit condition from a position strictly left of the text end:
the loop index never increases, so no fuel suffices. -/
theorem synthChunkLoop_diverges (text : List Char) (avail : Int) (hav : avail ≤ 0) :
    ∀ (fuel : Nat) (i : Int), i < (text.length : Int) →
      synthChunkLoop fuel text avail i = none := by
  intro fuel
  induction fuel with
  | zero => intro i _; rfl
  | succ fuel ih =>
    intro i hi
    rw [synthChunkLoop, if_pos hi, ih (i + avail) (by omega)]
    rfl

/-- For a positive chunk size, the fuelled loop finishes within
`text.length - i` extra steps and agrees with `chunkLoop` on the remaining
text. -/
theorem synthChunkLoop_eq_chunkLoop (avail : Int) (hav : 1 ≤ avail) (text : List Char) :
    ∀ (fuel : Nat) (i : Int), 1 ≤ fuel → 0 ≤ i → (text.length : Int) - i < (fuel : Int) →
      synthChunkLoop fuel text avail i = some (chunkLoop avail.toNat (text.drop i.toNat)) := by
  intro fuel
  induction fuel with
  | zero => intro i hf _ _; omega
  | succ fuel ih =>
    intro i _ hi hfuel
    rcases lt_or_le i (text.length : Int) with hlt | hge
    · rw [synthChunkLoop, if_pos hlt]
      have hfuel1 : 1 ≤ fuel := by
        push_cast at hfuel
        omega
      rw [ih (i + avail) hfuel1 (by omega) (by push_cast at hfuel ⊢; omega)]
      have hdropne : text.drop i.toNat ≠ [] := by
        intro hnil
        rw [List.drop_eq_nil_iff] at hnil
        omega
      obtain ⟨c, rest, hcr⟩ := List.exists_cons_of_ne_nil hdropne
      have hrest : rest = text.drop (i.toNat + 1) := by
        have htl : (text.drop i.toNat).tail = rest := by rw [hcr]; rfl
        rw [← htl, List.tail_drop]
      have hdropstep : rest.drop (avail.toNat - 1) = text.drop ((i + avail).toNat) := by
        rw [hrest, List.drop_drop]
        congr 1
        omega
      have hsub : jsSubstring text i (i + avail) = (c :: rest).take avail.toNat := by
        simp only [jsSubstring]
        have hA : max (min (max i 0) (text.length : Int))
            (min (max (i + avail) 0) (text.length : Int)) =
            min (i + avail) (text.length : Int) := by omega
        have hB : min (min (max i 0) (text.length : Int))
            (min (max (i + avail) 0) (text.length : Int)) = i := by omega
        rw [hA, hB, List.drop_take, ← hcr, List.take_eq_take]
        simp only [List.length_drop]
        omega
      simp only [Option.map_some']
      rw [hcr, chunkLoop, hsub, hdropstep]
    · rw [synthChunkLoop, if_neg (by omega)]
      have hnil : text.drop i.toNat = [] := by
        rw [List.drop_eq_nil_iff]
        omega
      rw [hnil, chunkLoop]

/-- With a positive budget the synthesis re-chunking terminates within its
fuel and produces exactly the `chunkLoop` slices. -/
theorem synthesisChunks_eq (combined : List Char) (avail : Int) (hav : 1 ≤ avail) :
    synthesisChunks combined avail = some (chunkLoop avail.toNat combined) := by
  unfold synthesisChunks
  have h := synthChunkLoop_eq_chunkLoop avail hav combined (combined.length + 1) 0
    (by omega) (by omega) (by push_cast; omega)
  rw [h]
  simp

/-- The processing-stage chunk size (pollinationsProcessor.ts lines
92-97): `Math.max(1, Math.floor(availableChars / 2))` with
`availableChars = maxInputChars - templateLength - 200`; `Math.floor` on a
possibly negative quotient is floor division. -/
def mainChunkSize (maxInputChars templateLength : Nat) : Nat :=
  max 1 (((maxInputChars : Int) - (templateLength : Int) - 200).fdiv 2).toNat

/-- Claim C5 (amended).  Synthesis threshold with
`A = maxInputChars - synthesis template overhead - 500`: a joined text of
length at most `A` is synthesized in exactly one call whose input is the
whole text; a longer text is, provided `A ≥ 1`, split into at least two
chunks of at most `A` characters each that cover the text, with one call
per chunk and every synthesis-stage progress event carrying the
`synthesis` stage.  (The `A ≥ 1` proviso is forced: for `A ≤ 0` the
re-chunking loop of the source never terminates, see the counterexample
and claim C8.) -/
theorem synthesis_threshold (maxInputChars synthTemplateLength : Nat)
    (combined : List Char) (cancel : Nat → Bool) (_hne : combined ≠ [])
    (avail : Int) (havail : avail = availableCharsForSynth maxInputChars synthTemplateLength) :
    ((combined.length : Int) ≤ avail →
      synthesisPlan combined avail = some (SynthPlan.single combined) ∧
      synthesisCallCount (SynthPlan.single combined) = 1 ∧
      ∀ e ∈ synthesisEvents (SynthPlan.single combined) cancel, e.stage = Stage.synthesis) ∧
    (1 ≤ avail → avail < (combined.length : Int) →
      ∃ cs, synthesisPlan combined avail = some (SynthPlan.chunked cs) ∧
        2 ≤ cs.length ∧
        (∀ c ∈ cs, (c.length : Int) ≤ avail) ∧
        cs.flatten = combined ∧
        synthesisCallCount (SynthPlan.chunked cs) = cs.length ∧
        ∀ e ∈ synthesisEvents (SynthPlan.chunked cs) cancel, e.stage = Stage.synthesis) := by
  constructor
  · intro hle
    refine ⟨?_, rfl, ?_⟩
    · unfold synthesisPlan
      rw [if_pos hle]
    · intro e he
      rcases List.mem_cons.mp he with h | h
      · rw [h]
      · rcases List.mem_singleton.mp h with h
        rw [h]
  · intro hav hgt
    refine ⟨chunkLoop avail.toNat combined, ?_, ?_, ?_, ?_, rfl, ?_⟩
    · unfold synthesisPlan
      rw [if_neg (by omega), synthesisChunks_eq combined avail hav]
      rfl
    · refine chunkLoop_two_le avail.toNat (by omega) combined (by omega)
    · intro c hc
      have := chunkLoop_length_le avail.toNat combined c hc
      omega
    · exact chunkLoop_flatten avail.toNat (by omega) combined
    · intro e he
      rcases List.mem_cons.mp he with h | h
      · rw [h]
      · obtain ⟨comp, _, h⟩ := List.mem_map.mp h
        rw [← h]

/-- Counterexample to claim C5 as stated: with `maxInputChars = 502` and a
synthesis template overhead of 2 characters, the derived budget `A` is 0;
a one-character joined text exceeds it by one, yet the source's
re-chunking loop never terminates (its index never advances), so no chunk
list — in particular none of at least two chunks of at most `A`
characters — is ever produced and no synthesis call is issued. -/
theorem synthesis_threshold_counterexample :
    availableCharsForSynth 502 2 = 0 ∧
    synthesisPlan ['x'] (availableCharsForSynth 502 2) = none := by
  exact ⟨rfl, rfl⟩

/-- Witness for amended claim C5: a 1-character text within a budget of 98
is synthesized in a single call; a 5-character text over a budget of 2 is
split into three chunks. -/
theorem synthesis_threshold_witness :
    synthesisPlan ['x'] (availableCharsForSynth 600 2) = some (SynthPlan.single ['x']) ∧
    ∃ cs, synthesisPlan ['a', 'b', 'c', 'd', 'e'] (availableCharsForSynth 504 2) =
        some (SynthPlan.chunked cs) ∧ 2 ≤ cs.length := by
  have h1 := (synthesis_threshold 600 2 ['x'] (fun _ => false) (by decide) _ rfl).1
    (by decide)
  have h2 := (synthesis_threshold 504 2 ['a', 'b', 'c', 'd', 'e'] (fun _ => false)
    (by decide) _ rfl).2 (by decide) (by decide)
  obtain ⟨cs, hcs, h2le, _⟩ := h2
  exact ⟨h1.1, cs, hcs, h2le⟩

/-- Claim C8, recording the divergence between spec and code: the
processing-stage chunk size is clamped to at least 1 as the spec's
invariant requires, but the synthesis-stage budget is not — at
`maxInputChars = 400` with a 0-character synthesis template the budget is
negative, and on any non-empty joined text the re-chunking loop exhausts
every fuel without terminating, so the synthesis stage never produces a
chunk list. -/
theorem synthesis_chunking_not_clamped :
    (∀ maxInputChars templateLength : Nat, 1 ≤ mainChunkSize maxInputChars templateLength) ∧
    availableCharsForSynth 400 0 < 0 ∧
    (∀ fuel : Nat, synthChunkLoop fuel ['x'] (availableCharsForSynth 400 0) 0 = none) ∧
    synthesisPlan ['x'] (availableCharsForSynth 400 0) = none := by
  refine ⟨fun m t => le_max_left 1 _, by decide, ?_, rfl⟩
  intro fuel
  exact synthChunkLoop_diverges ['x'] _ (by decide) fuel 0 (by decide)

/-- A JSON value, as far as the merge step observes one. -/
inductive Json where
  | null
  | bool (b : Bool)
  | num (n : Int)
  | str (s : List Char)
  | arr (elems : List Json)
  | obj (fields : List (List Char × Json))

/-- The observable outcome of preprocessing one synthesized part
(pollinationsProcessor.ts lines 258-260): strip a markdown code fence,
trim, then `JSON.parse`.  `emptyClean` — the cleaned part is the empty
string (the `if (cleanPart)` guard skips it); `invalid` — `JSON.parse`
throws; `parsed j` — parsing succeeds with value `j`.  `JSON.parse` is a
host builtin, so it is modelled by its outcome. -/
inductive PartParse where
  | emptyClean
  | invalid
  | parsed (j : Json)

/-- One part of the chunked synthesis output: its raw text and the
modelled preprocessing outcome of that text. -/
structure SynthPart where
  raw : List Char
  parse : PartParse

/-- The `finalJoinStrategy` parameter of `processAndSynthesize`
(line 183). -/
inductive JoinStrategy where
  | stringConcat
  | jsonArray
deriving DecidableEq

/-- What the final join returns: either a merged JSON array (the source
returns `JSON.stringify(combinedArray, null, 2)`, i.e. the serialization
of this array — `stringify` is a host builtin) or plain text. -/
inductive JoinResult where
  | json (elems : List Json)
  | text (s : List Char)

/-- The `forEach` accumulation of the `json-array` merge (lines 256-265):
skipped parts contribute nothing, a parsed array contributes its elements
in order, a parsed non-array is silently ignored, and any unparseable part
throws, aborting the whole accumulation (`none`), which the `catch`
converts to the concatenation fallback. -/
def collectArrays : List PartParse → Option (List Json)
  | [] => some []
  | PartParse.emptyClean :: rest => collectArrays rest
  | PartParse.invalid :: _ => none
  | PartParse.parsed (Json.arr xs) :: rest =>
    (collectArrays rest).map fun acc => xs ++ acc
  | PartParse.parsed Json.null :: rest => collectArrays rest
  | PartParse.parsed (Json.bool _) :: rest => collectArrays rest
  | PartParse.parsed (Json.num _) :: rest => collectArrays rest
  | PartParse.parsed (Json.str _) :: rest => collectArrays rest
  | PartParse.parsed (Json.obj _) :: rest => collectArrays rest

/-- The terminal join of `processAndSynthesize` (lines 253-275): with more
than one part and the `json-array` strategy, merge the parts' arrays into
one re-serialized array, falling back on a parse failure to the parts
joined with `'\n\n'` — the same separator the plain string-concat path
(line 275) uses. -/
def finalJoin (strategy : JoinStrategy) (parts : List SynthPart) : JoinResult :=
  if 1 < parts.length ∧ strategy = JoinStrategy.jsonArray then
    match collectArrays (parts.map SynthPart.parse) with
    | some elems => JoinResult.json elems
    | none => JoinResult.text (joinSep ['\n', '\n'] (parts.map SynthPart.raw))
  else
    JoinResult.text (joinSep ['\n', '\n'] (parts.map SynthPart.raw))

/-- The accumulation over a list of parts that all parse as JSON arrays
succeeds and yields the in-order concatenation of their elements. -/
theorem collectArrays_all_arrays (xss : List (List Json)) :
    collectArrays (xss.map fun xs => PartParse.parsed (Json.arr xs)) =
      some xss.flatten := by
  induction xss with
  | nil => rfl
  | cons xs rest ih =>
    rw [List.map_cons, collectArrays, ih]
    rfl

/-- Claim C7.  JsonArrayMerge join: when every part parses as a JSON
array (however many parts, whatever their elements), the merge
concatenates the arrays element-wise, in order, into one JSON array that
is re-serialized — in particular the two arrays `[{"id":"a"}]` and
`[{"id":"b"}]` merge to `[{"id":"a"},{"id":"b"}]` — and if any part fails
to parse as JSON the merge throws nothing and returns exactly what the
string-concat strategy returns: the raw parts joined with the fixed
`'\n\n'` separator. -/
theorem jsonArrayMerge_spec (parts : List SynthPart) (hlen : 1 < parts.length) :
    (∀ xss : List (List Json),
      parts.map SynthPart.parse = xss.map (fun xs => PartParse.parsed (Json.arr xs)) →
      finalJoin JoinStrategy.jsonArray parts = JoinResult.json xss.flatten) ∧
    (PartParse.invalid ∈ parts.map SynthPart.parse →
      finalJoin JoinStrategy.jsonArray parts = finalJoin JoinStrategy.stringConcat parts) := by
  constructor
  · intro xss hparse
    unfold finalJoin
    rw [if_pos ⟨hlen, rfl⟩, hparse, collectArrays_all_arrays]
  · intro hinv
    have hnone : collectArrays (parts.map SynthPart.parse) = none := by
      generalize parts.map SynthPart.parse = ps at hinv ⊢
      induction ps with
      | nil => simp at hinv
      | cons p rest ih =>
        rcases List.mem_cons.mp hinv with h | h
        · rw [← h, collectArrays]
        · cases p with
          | emptyClean => rw [collectArrays]; exact ih h
          | invalid => rw [collectArrays]
          | parsed j =>
            cases j with
            | arr xs =>
              rw [collectArrays, ih h]
              rfl
            | null => rw [collectArrays]; exact ih h
            | bool b => rw [collectArrays]; exact ih h
            | num n => rw [collectArrays]; exact ih h
            | str s => rw [collectArrays]; exact ih h
            | obj fields => rw [collectArrays]; exact ih h
    unfold finalJoin
    rw [if_pos ⟨hlen, rfl⟩, hnone]
    rw [if_neg (by simp)]

/-- Witness for claim C7: two concrete parts holding the fenced arrays
merge to the two-object array, and a two-part list with one invalid part
joins exactly like the string-concat strategy. -/
theorem jsonArrayMerge_spec_witness :
    finalJoin JoinStrategy.jsonArray
      [⟨['['] ++ ['\x7b'] ++ ['"', 'i', 'd', '"', ':', '"', 'a', '"'] ++ ['\x7d'] ++ [']'],
          PartParse.parsed (Json.arr [Json.obj [(['i', 'd'], Json.str ['a'])]])⟩,
        ⟨['['] ++ ['\x7b'] ++ ['"', 'i', 'd', '"', ':', '"', 'b', '"'] ++ ['\x7d'] ++ [']'],
          PartParse.parsed (Json.arr [Json.obj [(['i', 'd'], Json.str ['b'])]])⟩] =
      JoinResult.json [Json.obj [(['i', 'd'], Json.str ['a'])],
        Json.obj [(['i', 'd'], Json.str ['b'])]] ∧
    finalJoin JoinStrategy.jsonArray [⟨['o', 'k'], PartParse.parsed Json.null⟩,
        ⟨['b', 'a', 'd'], PartParse.invalid⟩] =
      finalJoin JoinStrategy.stringConcat [⟨['o', 'k'], PartParse.parsed Json.null⟩,
        ⟨['b', 'a', 'd'], PartParse.invalid⟩] := by
  constructor
  · exact (jsonArrayMerge_spec
      [⟨['['] ++ ['\x7b'] ++ ['"', 'i', 'd', '"', ':', '"', 'a', '"'] ++ ['\x7d'] ++ [']'],
          PartParse.parsed (Json.arr [Json.obj [(['i', 'd'], Json.str ['a'])]])⟩,
        ⟨['['] ++ ['\x7b'] ++ ['"', 'i', 'd', '"', ':', '"', 'b', '"'] ++ ['\x7d'] ++ [']'],
          PartParse.parsed (Json.arr [Json.obj [(['i', 'd'], Json.str ['b'])]])⟩]
      (by decide)).1
      [[Json.obj [(['i', 'd'], Json.str ['a'])]], [Json.obj [(['i', 'd'], Json.str ['b'])]]]
      rfl
  · exact (jsonArrayMerge_spec [⟨['o', 'k'], PartParse.parsed Json.null⟩,
      ⟨['b', 'a', 'd'], PartParse.invalid⟩] (by decide)).2 (by simp)

end PollinationsProcessor
